import Mathlib

/-!
Shallow embedding of the core of `mcapi-rs` (a Minecraft server information
service) and proofs about it.

The embedding follows `src/main.rs` and `src/protocol.rs`:
* the VarInt codec (`encode_varint`, `read_varint`) and packet framer
  (`build_packet`) from `protocol.rs`, with `u32` arithmetic modelled as
  `Nat` with explicit `% 2 ^ 32` where the Rust code wraps;
* the plugin parser (`parse_plugins`), the null-terminated string reader
  (`string_until_zero`), the query key/value loop and the player-list
  parser from `protocol.rs`, with byte streams modelled as `List Nat` and
  Rust strings as `List Char`;
* host/port normalization (`parse_host`), port validation
  (`validate_port`) and the coalescing cache (`get_cached_data`,
  `get_ping`, `get_query`) from `main.rs`.  The cache's store round trips
  are modelled by explicit parameters: `read1`/`read2` are the envelopes
  observed at the two cache reads (before and after lock acquisition),
  `now1`/`now2`/`now3` the successive `unix_timestamp()` calls, `elapsed`
  the measured refresh duration, and the returned record reports which
  effects (lock acquisition, refresh invocation, cache write) occurred.
-/

namespace Mcapi

/-- Error kinds.  `Io`, `Json`, `Number`, `Utf8`, `Varint` and
`PacketTooLarge` come from `protocol.rs`; payloads of the wrapped errors
are elided.  `InvalidPort`, `ResolveFailed` and `Timeout` are the
additional variants of `types::Error`.  Modelled from the spec:
`src/types.rs` is not part of the provided sources; §7 of the spec lists
exactly these error kinds. -/
inductive Error where
  | Io
  | Json
  | Number
  | Utf8
  | Varint
  | PacketTooLarge
  | InvalidPort (port : Nat)
  | ResolveFailed
  | Timeout
deriving DecidableEq, Repr

end Mcapi

deriving instance DecidableEq for Except

namespace Mcapi

/-- Wrapping `u64` subtraction, as performed by
`unix_timestamp() - (max_age as u64)` in a release build. -/
def u64_sub (a b : Nat) : Nat :=
  (a + 2 ^ 64 - b % 2 ^ 64) % 2 ^ 64

/-- `protocol.rs`: encode a `u32` into a VarInt.  The loop
`while val & 0xFFFF_FF80 != 0` becomes recursion on `val >>> 7`. -/
def encode_varint (num : Nat) : List Nat :=
  if num &&& 0xFFFFFF80 ≠ 0 then
    ((num &&& 0x7F) ||| 0x80) :: encode_varint (num >>> 7)
  else
    [num &&& 0x7F]
decreasing_by
  rename_i h
  have hz : num ≠ 0 := by
    intro h0
    subst h0
    simp at h
  simpa [Nat.shiftRight_eq_div_pow] using
    Nat.div_lt_self (Nat.pos_of_ne_zero hz) (by norm_num)

/-- `protocol.rs`: the body of `read_varint`'s loop.  `result` and `index`
are the loop state; reading from an exhausted input models the
`read_exact` I/O failure.  The merge `result |= value << (7 * index)`
keeps the low 32 bits, as `u32` arithmetic does. -/
def read_varint_go : List Nat → Nat → Nat → Except Error (Nat × List Nat)
  | [], _, _ => .error .Io
  | b :: rest, result, index =>
    let value := b &&& 0x7F
    let merged := (result ||| (value <<< (7 * index))) % 2 ^ 32
    if index + 1 > 5 then .error .Varint
    else if b &&& 0x80 = 0 then .ok (merged, rest)
    else read_varint_go rest merged (index + 1)

/-- `protocol.rs`: read a VarInt into a `u32`, returning the decoded value
and the unread remainder of the input. -/
def read_varint (bytes : List Nat) : Except Error (Nat × List Nat) :=
  read_varint_go bytes 0 0

/-- `protocol.rs`: build a packet from a payload and a packet id.  The
`usize`-to-`u32` cast of the length is the explicit `% 2 ^ 32`. -/
def build_packet (data : List Nat) (id : Nat) : List Nat :=
  let idv := encode_varint id
  let lenv := encode_varint ((data.length + idv.length) % 2 ^ 32)
  lenv ++ idv ++ data

/-- Rust's `str::split_once(c)`: split a string at the first occurrence of
the character `c`, returning the parts before and after it. -/
def split_once (c : Char) : List Char → Option (List Char × List Char)
  | [] => none
  | d :: rest =>
    if d = c then some ([], rest)
    else
      match split_once c rest with
      | some (a, b) => some (d :: a, b)
      | none => none

/-- Rust's `u16::from_str`: an optional leading plus sign, then one or more
decimal digits, and the value must fit in a `u16`.  Overflow at any step of
Rust's accumulation is equivalent to the final value exceeding 65535. -/
def parse_u16 (s : List Char) : Option Nat :=
  let digits :=
    match s with
    | '+' :: rest => rest
    | _ => s
  if digits.isEmpty then none
  else if digits.all (fun c => c.isDigit) then
    let v := digits.foldl (fun acc c => acc * 10 + (c.toNat - 48)) 0
    if v ≤ 65535 then some v else none
  else none

/-- `main.rs`: `ServerAddr::parse_host`.  If the port parameter is present
it is used; otherwise the host is split at the first `:` (Rust
`split_once`) and the suffix is used when it parses as a `u16`; otherwise
the port defaults to 25565. -/
def parse_host (host : List Char) (port : Option Nat) : List Char × Nat :=
  match port with
  | some p => (host, p)
  | none =>
    match split_once ':' host with
    | some (h, t) =>
      match parse_u16 t with
      | some p => (h, p)
      | none => (host, 25565)
    | none => (host, 25565)

/-- Leftmost match of `sep` in a string: the part before the first
occurrence and the remainder after it, as Rust's `str::split` finds
successive pieces. -/
def findSplit (sep : List Char) : List Char → Option (List Char × List Char)
  | [] => none
  | c :: rest =>
    if sep.isPrefixOf (c :: rest) then some ([], (c :: rest).drop sep.length)
    else
      match findSplit sep rest with
      | some (a, r) => some (c :: a, r)
      | none => none

/-- Fuel-driven full split at every non-overlapping occurrence of `sep`,
left to right: Rust's `s.split(sep).collect()`.  Any fuel above the input
length is adequate. -/
def splitAllF : Nat → List Char → List Char → List (List Char)
  | 0, _, s => [s]
  | fuel + 1, sep, s =>
    match findSplit sep s with
    | none => [s]
    | some (a, r) => a :: splitAllF fuel sep r

/-- Rust's `s.split(sep)` collected into a list. -/
def splitAll (sep s : List Char) : List (List Char) :=
  splitAllF (s.length + 1) sep s

/-- `protocol.rs`: `parse_plugins`.  `parts = plugins.split(": ")`; the
first `parts.next()` is the text before the first `": "` (or the whole
string), the second `parts.next()` is the text between the first and
second occurrences (or the rest after the first when there is no second),
and that second item is split at `"; "` into the plugin list. -/
def parse_plugins (plugins : Option (List Char)) : List Char × List (List Char) :=
  match plugins with
  | none => ([], [])
  | some s =>
    match findSplit [':', ' '] s with
    | none => (s, [])
    | some (server_mod_name, rest) =>
      let second :=
        match findSplit [':', ' '] rest with
        | none => rest
        | some (a, _) => a
      (server_mod_name, splitAll [';', ' '] second)

/-- `protocol.rs`: the loop of `string_until_zero`, with `items` the bytes
accumulated so far.  An exhausted input models the `read_exact` failure,
which also yields `none`. -/
def string_until_zero_go (items : List Nat) : List Nat → Option (List Nat) × List Nat
  | [] => (none, [])
  | b :: rest =>
    if b = 0 then
      (if items.isEmpty then none else some items, rest)
    else string_until_zero_go (items ++ [b]) rest

/-- `protocol.rs`: `string_until_zero`.  Reads bytes until a null byte and
returns them (lossy UTF-8 conversion is elided; the raw bytes are kept),
plus the unread remainder of the input; returns `none` when no byte
precedes the null byte or the input is exhausted. -/
def string_until_zero (input : List Nat) : Option (List Nat) × List Nat :=
  string_until_zero_go [] input

/-- `protocol.rs`: the `while let` loop of `parse_players`, fuel-driven;
each string read is a player name, and a `none` read ends the list. -/
def parse_players_go : Nat → List Nat → List (List Nat)
  | 0, _ => []
  | fuel + 1, input =>
    match string_until_zero input with
    | (some player, rest) => player :: parse_players_go fuel rest
    | (none, _) => []

/-- `protocol.rs`: `parse_players`.  When `ignore_garbage` is set, 10
padding bytes are skipped first (a short read simply exhausts the input,
as the ignored `read_exact` error does). -/
def parse_players (input : List Nat) (ignore_garbage : Bool) : List (List Nat) :=
  let input := if ignore_garbage then input.drop 10 else input
  parse_players_go (input.length + 1) input

/-- The bytes of the special key `"plugins"`. -/
def pluginsKey : List Nat := [112, 108, 117, 103, 105, 110, 115]

/-- `protocol.rs`: the key/value loop of `send_query`, fuel-driven.  `kv`
accumulates inserted pairs (most recent first), `server` holds the parsed
`plugins` value.  A key with no following value is skipped (with a
warning) and the loop continues; a `none` key read ends the loop, and the
remaining input is what `parse_players` will consume. -/
def query_kv_go :
    Nat → List Nat → List (List Nat × List Nat) →
      Option (List Char × List (List Char)) →
      List (List Nat × List Nat) × Option (List Char × List (List Char)) × List Nat
  | 0, input, kv, server => (kv, server, input)
  | fuel + 1, input, kv, server =>
    match string_until_zero input with
    | (none, rest) => (kv, server, rest)
    | (some key, rest) =>
      match string_until_zero rest with
      | (none, rest2) => query_kv_go fuel rest2 kv server
      | (some value, rest2) =>
        if key = pluginsKey then
          query_kv_go fuel rest2 kv
            (some (parse_plugins (some (value.map Char.ofNat))))
        else query_kv_go fuel rest2 ((key, value) :: kv) server

/-- `main.rs`: `MAX_AGE`, the cache TTL and freshness bound in seconds. -/
def MAX_AGE : Nat := 60 * 5

/-- Modelled from the spec: the envelope capability set of `types::Metadata`
together with `From<Error>` (`src/types.rs` is not among the provided
sources; §4.7 of the spec lists construct-from-error-kind,
stamp-with-times, report-online and a method label, the label being used
only for metrics, which the embedding elides). -/
class Metadata (D : Type) where
  ofError : Error → D
  set_times : D → Nat → Nat → D
  updated_at : D → Nat
  is_online : D → Bool

/-- The observable outcome of one `get_cached_data` call: the returned
value, whether the distributed lock was acquired, whether `refresh_fn` was
invoked, and the cache write (value and TTL in seconds) if one happened. -/
structure CacheResult (D : Type) where
  result : Except Error D
  lockAcquired : Bool
  refreshInvoked : Bool
  written : Option (D × Nat)
deriving DecidableEq

/-- `main.rs`, `get_cached_data` after both freshness checks failed:
`f().await.unwrap_or_else(D::from)`, stamping with
`set_times(unix_timestamp(), elapsed)`, and `set_ex(key, value, max_age)`. -/
def refresh_and_store {D : Type} [Metadata D] (refresh : Except Error D)
    (now3 elapsed max_age : Nat) : CacheResult D :=
  let data :=
    match refresh with
    | .ok d => d
    | .error e => Metadata.ofError e
  let data := Metadata.set_times data now3 elapsed
  ⟨.ok data, true, true, some (data, max_age)⟩

/-- `main.rs`, `get_cached_data` after lock acquisition: re-read the key
and re-check freshness (`data.updated_at() >= unix_timestamp() - max_age`
at time `now2`) before refreshing. -/
def get_cached_locked {D : Type} [Metadata D] (read2 : Option D)
    (refresh : Except Error D) (now2 now3 elapsed max_age : Nat) : CacheResult D :=
  match read2 with
  | some d =>
    if u64_sub now2 max_age ≤ Metadata.updated_at d then ⟨.ok d, true, false, none⟩
    else refresh_and_store refresh now3 elapsed max_age
  | none => refresh_and_store refresh now3 elapsed max_age

/-- `main.rs`: `get_cached_data`.  Store round trips are modelled by the
`read1`/`read2` parameters (the envelopes observed at the cache read
before and at the re-read after lock acquisition; `none` is a missing
key), `now1`/`now2`/`now3` are the successive `unix_timestamp()` calls,
`elapsed` the measured refresh duration.  Deserialization, serialization
and the store operations themselves are modelled as succeeding, the lock
acquisition loop as eventually succeeding, and metrics and unlock as
effect-free. -/
def get_cached_data {D : Type} [Metadata D] (read1 read2 : Option D)
    (refresh : Except Error D) (now1 now2 now3 elapsed max_age : Nat) :
    CacheResult D :=
  match read1 with
  | some d =>
    if u64_sub now1 max_age ≤ Metadata.updated_at d then ⟨.ok d, false, false, none⟩
    else get_cached_locked read2 refresh now2 now3 elapsed max_age
  | none => get_cached_locked read2 refresh now2 now3 elapsed max_age

/-- `main.rs`: `validate_port`. -/
def validate_port (port : Nat) : Except Error Unit :=
  if port < 1024 then .error (.InvalidPort port) else .ok ()

/-- The observable outcome of `get_ping`/`get_query`: the returned
envelope and which effects occurred (`cacheRead` is whether the cached
lookup was entered at all). -/
structure PingOutcome (D : Type) where
  result : D
  cacheRead : Bool
  lockAcquired : Bool
  refreshInvoked : Bool
  written : Option (D × Nat)
deriving DecidableEq

/-- `main.rs`: `get_ping`.  An invalid port short-circuits to
`err.into()`; otherwise the cached lookup runs with key
`ping:<host>:<port>` and `MAX_AGE`, and a `get_cached_data` error is
folded by `unwrap_or_else(From::from)`.  The refresh closure (resolver
plus `send_ping` under a timeout) is the abstract `refresh` parameter. -/
def get_ping {D : Type} [Metadata D] (port : Nat) (read1 read2 : Option D)
    (refresh : Except Error D) (now1 now2 now3 elapsed : Nat) : PingOutcome D :=
  match validate_port port with
  | .error e => ⟨Metadata.ofError e, false, false, false, none⟩
  | .ok _ =>
    let r := get_cached_data read1 read2 refresh now1 now2 now3 elapsed MAX_AGE
    ⟨match r.result with
      | .ok d => d
      | .error e => Metadata.ofError e,
      true, r.lockAcquired, r.refreshInvoked, r.written⟩

/-- `main.rs`: `get_query`.  Identical control flow to `get_ping` with key
`query:<host>:<port>`; the refresh closure (resolver plus `send_query`
under a timeout) is the abstract `refresh` parameter. -/
def get_query {D : Type} [Metadata D] (port : Nat) (read1 read2 : Option D)
    (refresh : Except Error D) (now1 now2 now3 elapsed : Nat) : PingOutcome D :=
  match validate_port port with
  | .error e => ⟨Metadata.ofError e, false, false, false, none⟩
  | .ok _ =>
    let r := get_cached_data read1 read2 refresh now1 now2 now3 elapsed MAX_AGE
    ⟨match r.result with
      | .ok d => d
      | .error e => Metadata.ofError e,
      true, r.lockAcquired, r.refreshInvoked, r.written⟩

/-- Modelled from the spec: the metadata fields shared by the
`types::ServerPing` and `types::ServerQuery` envelopes (`src/types.rs` is
not among the provided sources; §3 of the spec lists `online`, `error`,
`fetched_at` and `duration`; the protocol payload fields are elided). -/
structure SpecEnvelope where
  online : Bool
  error : Option Error
  fetched_at : Nat
  duration : Nat
deriving DecidableEq

/-- Modelled from the spec: the envelope capability set on the concrete
envelope; the error constructor zero-fills all other fields (§4.7). -/
instance : Metadata SpecEnvelope where
  ofError e := ⟨false, some e, 0, 0⟩
  set_times d t dur := { d with fetched_at := t, duration := dur }
  updated_at d := d.fetched_at
  is_online d := d.online

end Mcapi

namespace Mcapi

/-! ### VarInt codec lemmas -/

theorem and_shiftLeft_comm (n m k : Nat) :
    n &&& (m <<< k) = ((n >>> k) &&& m) <<< k := by
  apply Nat.eq_of_testBit_eq
  intro i
  simp only [Nat.testBit_and, Nat.testBit_shiftLeft, Nat.testBit_shiftRight]
  by_cases h : k ≤ i
  · have : k + (i - k) = i := by omega
    simp [h, this]
  · simp [h]

theorem mask_eq_zero_iff {n : Nat} (hn : n < 2 ^ 32) :
    (n &&& 0xFFFFFF80 = 0) ↔ n < 128 := by
  have hmask : (0xFFFFFF80 : Nat) = (2 ^ 25 - 1) <<< 7 := by
    rw [Nat.shiftLeft_eq]
    norm_num
  rw [hmask, and_shiftLeft_comm, Nat.and_pow_two_sub_one_eq_mod]
  have hdiv : n >>> 7 < 2 ^ 25 := by
    rw [Nat.shiftRight_eq_div_pow]
    omega
  rw [Nat.mod_eq_of_lt hdiv, Nat.shiftLeft_eq, Nat.shiftRight_eq_div_pow]
  omega

theorem and_0x7F_eq_mod (n : Nat) : n &&& 0x7F = n % 128 := by
  have h : (0x7F : Nat) = 2 ^ 7 - 1 := by norm_num
  rw [h, Nat.and_pow_two_sub_one_eq_mod]

theorem and_0x80_eq_zero {n : Nat} (h : n < 128) : n &&& 0x80 = 0 := by
  have h80 : (0x80 : Nat) = 2 ^ 7 := by norm_num
  rw [h80, Nat.and_two_pow, Nat.testBit_lt_two_pow (by omega)]
  decide

theorem or_0x80_and_0x7F (x : Nat) :
    ((x &&& 0x7F) ||| 0x80) &&& 0x7F = x &&& 0x7F := by
  have h1 : (0x80 : Nat) &&& 0x7F = 0 := by decide
  rw [Nat.and_distrib_right, Nat.and_assoc, h1, Nat.and_self, Nat.or_zero]

theorem or_0x80_and_0x80 (x : Nat) :
    ((x &&& 0x7F) ||| 0x80) &&& 0x80 = 0x80 := by
  have h1 : (0x7F : Nat) &&& 0x80 = 0 := by decide
  have h2 : (0x80 : Nat) &&& 0x80 = 0x80 := by decide
  rw [Nat.and_distrib_right, Nat.and_assoc, h1, h2, Nat.and_zero, Nat.zero_or]

theorem or_shiftLeft_eq_add {acc x k : Nat} (h : acc < 2 ^ k) :
    acc ||| (x <<< k) = x * 2 ^ k + acc := by
  rw [Nat.shiftLeft_eq, Nat.or_comm, ← Nat.mul_comm (2 ^ k) x,
    ← Nat.mul_add_lt_is_or h]

/-- One unfolding of the decoder loop on a nonempty input. -/
theorem read_varint_go_cons (b : Nat) (rest : List Nat) (result index : Nat) :
    read_varint_go (b :: rest) result index =
      if index + 1 > 5 then .error .Varint
      else if b &&& 0x80 = 0 then
        .ok ((result ||| ((b &&& 0x7F) <<< (7 * index))) % 2 ^ 32, rest)
      else
        read_varint_go rest
          ((result ||| ((b &&& 0x7F) <<< (7 * index))) % 2 ^ 32)
          (index + 1) := rfl

/-- Decoding an encoded value, generalized over the loop state: starting at
byte index `i` with accumulator `acc`, decoding `encode_varint n ++ rest`
succeeds and yields `acc + n * 2 ^ (7 * i)`. -/
theorem read_enc_aux (n : Nat) :
    ∀ i acc rest, i ≤ 4 → n < 2 ^ (32 - 7 * i) → acc < 2 ^ (7 * i) →
      read_varint_go (encode_varint n ++ rest) acc i =
        .ok (acc + n * 2 ^ (7 * i), rest) := by
  induction n using Nat.strong_induction_on with
  | _ n ih =>
    intro i acc rest hi hn hacc
    have hn32 : n < 2 ^ 32 :=
      lt_of_lt_of_le hn (Nat.pow_le_pow_right (by norm_num) (by omega))
    have hpow : 2 ^ (7 * (i + 1)) = 2 ^ (7 * i) * 128 := by
      rw [show 7 * (i + 1) = 7 * i + 7 by ring, pow_add]
      norm_num
    rw [encode_varint]
    by_cases hmask : n &&& 0xFFFFFF80 ≠ 0
    · have h128 : 128 ≤ n := by
        by_contra hlt
        exact hmask ((mask_eq_zero_iff hn32).mpr (by omega))
      have hi3 : i ≤ 3 := by
        rcases Nat.lt_or_ge i 4 with h | h
        · omega
        · exfalso
          have h4 : i = 4 := by omega
          subst h4
          norm_num at hn
          omega
      simp only [if_pos hmask, List.cons_append]
      rw [read_varint_go_cons, or_0x80_and_0x7F, or_0x80_and_0x80]
      have hidx : ¬ (i + 1 > 5) := by omega
      rw [if_neg hidx, if_neg (by norm_num : ¬ (0x80 : Nat) = 0)]
      have hlt : (n % 128) * 2 ^ (7 * i) + acc < 2 ^ (7 * (i + 1)) := by
        have h1 : n % 128 < 128 := Nat.mod_lt _ (by norm_num)
        have h3 : (n % 128) * 2 ^ (7 * i) ≤ 127 * 2 ^ (7 * i) :=
          Nat.mul_le_mul_right _ (by omega)
        omega
      have hlt32 : (n % 128) * 2 ^ (7 * i) + acc < 2 ^ 32 := by
        have h2 : (2 : Nat) ^ (7 * (i + 1)) ≤ 2 ^ 32 :=
          Nat.pow_le_pow_right (by norm_num) (by omega)
        omega
      have hmerge : (acc ||| ((n &&& 0x7F) <<< (7 * i))) % 2 ^ 32 =
          (n % 128) * 2 ^ (7 * i) + acc := by
        rw [and_0x7F_eq_mod, or_shiftLeft_eq_add hacc,
          Nat.mod_eq_of_lt hlt32]
      rw [hmerge]
      have hrec := ih (n >>> 7)
        (by
          rw [Nat.shiftRight_eq_div_pow]
          exact Nat.div_lt_self (by omega) (by norm_num))
        (i + 1) ((n % 128) * 2 ^ (7 * i) + acc) rest
        (by omega)
        (by
          rw [Nat.shiftRight_eq_div_pow]
          rw [Nat.div_lt_iff_lt_mul (by norm_num : (0:Nat) < 2 ^ 7)]
          have h2 : 2 ^ (32 - 7 * (i + 1)) * 2 ^ 7 = 2 ^ (32 - 7 * i) := by
            rw [← pow_add]
            congr 1
            omega
          omega)
        hlt
      rw [hrec]
      have hfinal : (n % 128) * 2 ^ (7 * i) + acc +
          (n >>> 7) * 2 ^ (7 * (i + 1)) = acc + n * 2 ^ (7 * i) := by
        rw [Nat.shiftRight_eq_div_pow, hpow,
          show (2 : Nat) ^ 7 = 128 by norm_num]
        have hqr : 128 * (n / 128) + n % 128 = n := Nat.div_add_mod n 128
        set q := n / 128 with hq
        set r := n % 128 with hr
        have hn' : n = 128 * q + r := by omega
        rw [hn']
        ring
      rw [hfinal]
    · push_neg at hmask
      have h128 : n < 128 := (mask_eq_zero_iff hn32).mp hmask
      have hcond : ¬ (n &&& 0xFFFFFF80 ≠ 0) := by simpa using hmask
      have hsm : n &&& 0x7F = n := by
        rw [and_0x7F_eq_mod]
        omega
      simp only [if_neg hcond, List.cons_append, List.nil_append]
      rw [hsm, read_varint_go_cons, and_0x80_eq_zero h128, hsm]
      have hidx : ¬ (i + 1 > 5) := by omega
      rw [if_neg hidx, if_pos rfl]
      have hlt32 : n * 2 ^ (7 * i) + acc < 2 ^ 32 := by
        have hPQ : 2 ^ (7 * i) * 2 ^ (32 - 7 * i) = 2 ^ 32 := by
          rw [← pow_add]
          congr 1
          omega
        have h1 : n * 2 ^ (7 * i) ≤ (2 ^ (32 - 7 * i) - 1) * 2 ^ (7 * i) :=
          Nat.mul_le_mul_right _ (by omega)
        have hQ : (0 : Nat) < 2 ^ (32 - 7 * i) := Nat.pos_pow_of_pos _ (by norm_num)
        nlinarith
      have hmerge : (acc ||| (n <<< (7 * i))) % 2 ^ 32 =
          n * 2 ^ (7 * i) + acc := by
        rw [or_shiftLeft_eq_add hacc, Nat.mod_eq_of_lt hlt32]
      rw [hmerge, Nat.add_comm]

/-- Round trip with a remainder: decoding `encode_varint n ++ rest`
recovers `n` and leaves `rest` unread. -/
theorem read_encode_varint {n : Nat} (hn : n < 2 ^ 32) (rest : List Nat) :
    read_varint (encode_varint n ++ rest) = .ok (n, rest) := by
  have := read_enc_aux n 0 0 rest (by norm_num) (by simpa using hn)
    (by norm_num)
  simpa [read_varint] using this

/-- An encoded value below `2 ^ (7 * k + 7)` occupies at most `k + 1`
bytes. -/
theorem encode_varint_length_le :
    ∀ k n : Nat, n < 2 ^ (7 * k + 7) → (encode_varint n).length ≤ k + 1 := by
  intro k
  induction k with
  | zero =>
    intro n hn
    norm_num at hn
    rw [encode_varint, if_neg]
    · simp
    · simpa using (mask_eq_zero_iff (by omega)).mpr hn
  | succ k ih =>
    intro n hn
    rw [encode_varint]
    by_cases hmask : n &&& 0xFFFFFF80 ≠ 0
    · rw [if_pos hmask]
      simp only [List.length_cons]
      have hrec := ih (n >>> 7) (by
        rw [Nat.shiftRight_eq_div_pow]
        rw [Nat.div_lt_iff_lt_mul (by norm_num : (0 : Nat) < 2 ^ 7)]
        have hp : 2 ^ (7 * k + 7) * 2 ^ 7 = 2 ^ (7 * (k + 1) + 7) := by
          rw [← pow_add]
          ring_nf
        omega)
      omega
    · rw [if_neg hmask]
      simp

/-- The decoder returns the `Varint` error exactly when, starting at byte
index `i`, all of the next `5 - i` bytes have the continuation bit set and
yet one more byte follows. -/
theorem read_varint_go_varint_iff :
    ∀ (bs : List Nat) (acc i : Nat), i ≤ 5 →
      (read_varint_go bs acc i = .error .Varint ↔
        5 - i < bs.length ∧ ∀ j, j < 5 - i → bs.getD j 0 &&& 0x80 ≠ 0) := by
  intro bs
  induction bs with
  | nil =>
    intro acc i hi
    simp [read_varint_go]
  | cons b rest ih =>
    intro acc i hi
    rw [read_varint_go_cons]
    by_cases hi5 : i + 1 > 5
    · rw [if_pos hi5]
      have h5 : i = 5 := by omega
      subst h5
      simp
    · rw [if_neg hi5]
      by_cases hb : b &&& 0x80 = 0
      · rw [if_pos hb]
        constructor
        · intro h
          exact absurd h (by simp)
        · rintro ⟨hlen, hall⟩
          exfalso
          have h0 := hall 0 (by omega)
          simp only [List.getD_cons_zero] at h0
          exact h0 hb
      · rw [if_neg hb]
        rw [ih _ (i + 1) (by omega)]
        constructor
        · rintro ⟨hlen, hall⟩
          refine ⟨by simp only [List.length_cons]; omega, fun j hj => ?_⟩
          cases j with
          | zero => simpa using hb
          | succ j =>
            have := hall j (by omega)
            simpa using this
        · rintro ⟨hlen, hall⟩
          refine ⟨by simp only [List.length_cons] at hlen; omega,
            fun j hj => ?_⟩
          have := hall (j + 1) (by omega)
          simpa using this

/-- The decoder succeeds whenever some byte at position `j ≤ 4 - i` has
the continuation bit clear and all bytes before it have it set; it
consumes exactly `j + 1` bytes. -/
theorem read_varint_go_success :
    ∀ (bs : List Nat) (acc i j : Nat), i + j ≤ 4 → j < bs.length →
      bs.getD j 0 &&& 0x80 = 0 → (∀ l, l < j → bs.getD l 0 &&& 0x80 ≠ 0) →
      ∃ v, read_varint_go bs acc i = .ok (v, bs.drop (j + 1)) := by
  intro bs
  induction bs with
  | nil =>
    intro acc i j h1 h2
    simp at h2
  | cons b rest ih =>
    intro acc i j h1 h2 h3 h4
    rw [read_varint_go_cons, if_neg (by omega)]
    cases j with
    | zero =>
      rw [if_pos (by simpa using h3)]
      exact ⟨(acc ||| ((b &&& 0x7F) <<< (7 * i))) % 2 ^ 32, by simp⟩
    | succ j =>
      have hb : ¬ (b &&& 0x80 = 0) := by
        have := h4 0 (by omega)
        simpa using this
      rw [if_neg hb]
      have := ih ((acc ||| ((b &&& 0x7F) <<< (7 * i))) % 2 ^ 32) (i + 1) j
        (by omega) (by simpa using h2) (by simpa using h3)
        (fun l hl => by
          have := h4 (l + 1) (by omega)
          simpa using this)
      simpa using this

/-- C3: for every `n` in `[0, 2^31 - 1]`, decoding the bytes produced by
`encode_varint n` with `read_varint` yields `n`; moreover
`encode_varint 0 = [0x00]`, `encode_varint 255 = [0xFF, 0x01]`,
`encode_varint 2147483647 = [0xFF, 0xFF, 0xFF, 0xFF, 0x07]`, and
`read_varint [0x84, 0x40]` yields `8196`. -/
theorem varint_roundtrip_claim :
    (∀ n : Nat, n ≤ 2 ^ 31 - 1 → read_varint (encode_varint n) = .ok (n, [])) ∧
    encode_varint 0 = [0x00] ∧
    encode_varint 255 = [0xFF, 0x01] ∧
    encode_varint 2147483647 = [0xFF, 0xFF, 0xFF, 0xFF, 0x07] ∧
    read_varint [0x84, 0x40] = .ok (8196, []) := by
  refine ⟨fun n hn => ?_, by simp +decide [encode_varint],
    by simp +decide [encode_varint], by simp +decide [encode_varint], rfl⟩
  have := read_encode_varint (show n < 2 ^ 32 by omega) []
  simpa using this

/-- Witness for C3 at `n = 2147483647`. -/
theorem varint_roundtrip_claim_witness :
    read_varint (encode_varint 2147483647) = .ok (2147483647, []) :=
  varint_roundtrip_claim.1 2147483647 (by norm_num)

/-- C10: the VarInt round trip holds on the full `u32` domain: for every
`n < 2 ^ 32`, `encode_varint n` emits at most 5 bytes and decoding it
recovers `n`. -/
theorem varint_u32_roundtrip_claim (n : Nat) (hn : n < 2 ^ 32) :
    (encode_varint n).length ≤ 5 ∧
      read_varint (encode_varint n) = .ok (n, []) := by
  constructor
  · exact encode_varint_length_le 4 n (by norm_num; omega)
  · simpa using read_encode_varint hn []

/-- Witness for C10 at `n = 4294967295 = 2^32 - 1`. -/
theorem varint_u32_roundtrip_claim_witness :
    (encode_varint 4294967295).length ≤ 5 ∧
      read_varint (encode_varint 4294967295) = .ok (4294967295, []) :=
  varint_u32_roundtrip_claim 4294967295 (by norm_num)

/-- Counterexample for C4: the five bytes `FF FF FF FF 7F` denote
`2^35 - 1 = 34359738367`, which overflows a `u32`, yet `read_varint` does
not fail with the `Varint` error: it succeeds with the truncated value
`4294967295`. -/
theorem varint_overflow_counterexample :
    read_varint [0xFF, 0xFF, 0xFF, 0xFF, 0x7F] = .ok (4294967295, []) ∧
    read_varint [0xFF, 0xFF, 0xFF, 0xFF, 0x7F] ≠ .error .Varint ∧
    127 * 2 ^ 0 + 127 * 2 ^ 7 + 127 * 2 ^ 14 + 127 * 2 ^ 21 + 127 * 2 ^ 28 =
      34359738367 ∧
    2 ^ 32 ≤ 34359738367 ∧ (4294967295 : Nat) ≠ 34359738367 := by
  exact ⟨rfl, by decide, by norm_num, by norm_num, by norm_num⟩

/-- C4 (amended): `read_varint` fails with the `Varint` error exactly when
more than 5 bytes are consumed, i.e. when the first five bytes all have
the continuation bit set and a sixth byte exists; value overflow is NOT
detected: bits beyond the 32nd are discarded (the accumulator is reduced
modulo `2 ^ 32`), as the truncated decode of `FF FF FF FF 7F` shows.  On
every input whose byte at some position `j ≤ 4` has the continuation bit
clear (and all earlier bytes have it set), the decoder succeeds,
consuming exactly `j + 1` bytes. -/
theorem varint_error_amended_claim :
    (∀ bs : List Nat, read_varint bs = .error .Varint ↔
      5 < bs.length ∧ ∀ j, j < 5 → bs.getD j 0 &&& 0x80 ≠ 0) ∧
    (∀ (bs : List Nat) (j : Nat), j ≤ 4 → j < bs.length →
      bs.getD j 0 &&& 0x80 = 0 → (∀ l, l < j → bs.getD l 0 &&& 0x80 ≠ 0) →
      ∃ v, read_varint bs = .ok (v, bs.drop (j + 1))) ∧
    read_varint [0xFF, 0xFF, 0xFF, 0xFF, 0x7F] =
      .ok ((2 ^ 35 - 1) % 2 ^ 32, []) := by
  refine ⟨fun bs => ?_, fun bs j h1 h2 h3 h4 => ?_, by decide⟩
  · have := read_varint_go_varint_iff bs 0 0 (by norm_num)
    simpa [read_varint] using this
  · exact read_varint_go_success bs 0 0 j (by omega) h2 h3 h4

/-- Witness for C4 (amended): six continuation bytes produce the `Varint`
error, and a two-byte well-formed input succeeds. -/
theorem varint_error_amended_claim_witness :
    read_varint [0xFF, 0xFF, 0xFF, 0xFF, 0xFF, 0x00] = .error .Varint ∧
    ∃ v, read_varint [0x84, 0x40] = .ok (v, ([] : List Nat)) := by
  constructor
  · exact (varint_error_amended_claim.1 [0xFF, 0xFF, 0xFF, 0xFF, 0xFF, 0x00]).mpr
      ⟨by decide, by decide⟩
  · exact varint_error_amended_claim.2.1 [0x84, 0x40] 1 (by norm_num)
      (by norm_num) (by decide) (by decide)

/-- C5: `build_packet p i` is
`VarInt(len(VarInt(i)) + len(p)) ++ VarInt(i) ++ p` (the hypotheses keep
both the id and the total length in the `u32` domain of the VarInt
encoder), a reader recovers the total length, the id and the payload, and
`build_packet [] 0 = [0x01, 0x00]`,
`build_packet [0x00] 0 = [0x02, 0x00, 0x00]`. -/
theorem build_packet_claim :
    (∀ (p : List Nat) (i : Nat), i < 2 ^ 32 →
      p.length + (encode_varint i).length < 2 ^ 32 →
      build_packet p i =
        encode_varint (p.length + (encode_varint i).length) ++
          encode_varint i ++ p ∧
      read_varint (build_packet p i) =
        .ok (p.length + (encode_varint i).length, encode_varint i ++ p) ∧
      read_varint (encode_varint i ++ p) = .ok (i, p)) ∧
    build_packet [] 0 = [0x01, 0x00] ∧
    build_packet [0x00] 0 = [0x02, 0x00, 0x00] := by
  refine ⟨fun p i hi hlen => ?_, by simp +decide [build_packet, encode_varint],
    by simp +decide [build_packet, encode_varint]⟩
  have hmod : (p.length + (encode_varint i).length) % 2 ^ 32 =
      p.length + (encode_varint i).length := Nat.mod_eq_of_lt hlen
  have hshape : build_packet p i =
      encode_varint (p.length + (encode_varint i).length) ++
        encode_varint i ++ p := by
    simp only [build_packet, hmod]
  refine ⟨hshape, ?_, read_encode_varint hi p⟩
  rw [hshape, List.append_assoc]
  exact read_encode_varint hlen (encode_varint i ++ p)

/-- `split_once` finds nothing when the character is absent. -/
theorem split_once_of_not_mem {h : List Char} (hm : ':' ∉ h) :
    split_once ':' h = none := by
  induction h with
  | nil => rfl
  | cons d t ih =>
    rw [split_once, if_neg (by simp at hm; exact Ne.symm hm.1),
      ih (by simp at hm; exact hm.2)]

/-- `split_once` splits at the first occurrence of the character. -/
theorem split_once_append {a : List Char} (b : List Char) (hm : ':' ∉ a) :
    split_once ':' (a ++ ':' :: b) = some (a, b) := by
  induction a with
  | nil => simp [split_once]
  | cons d t ih =>
    rw [List.cons_append, split_once, if_neg (by simp at hm; exact Ne.symm hm.1),
      ih (by simp at hm; exact hm.2)]

/-- Counterexample for C6: on `("a:1:2", None)` the code splits at the
FIRST colon, fails to parse `"1:2"` as a port, and falls back to
`("a:1:2", 25565)` — not the `("a:1", 2)` that splitting at the last
colon would produce (the suffix `"2"` does parse as a `u16`). -/
theorem parse_host_counterexample :
    parse_host "a:1:2".toList none = ("a:1:2".toList, 25565) ∧
    parse_u16 "2".toList = some 2 ∧
    parse_host "a:1:2".toList none ≠ ("a:1".toList, 2) := by
  exact ⟨by decide, by decide, by decide⟩

/-- C6 (amended): if the port option is present it is used and the host is
kept whole; if it is absent, the host is split at the FIRST `:` and the
suffix is used as the port when it parses as a `u16`; otherwise the
result is `(host, 25565)`.  In particular `("example.com:25570", None)`
normalizes to `("example.com", 25570)` and `("example.com", None)` to
`("example.com", 25565)`. -/
theorem parse_host_amended_claim :
    (∀ (h : List Char) (p : Nat), parse_host h (some p) = (h, p)) ∧
    (∀ (a b : List Char) (p : Nat), ':' ∉ a → parse_u16 b = some p →
      parse_host (a ++ ':' :: b) none = (a, p)) ∧
    (∀ a b : List Char, ':' ∉ a → parse_u16 b = none →
      parse_host (a ++ ':' :: b) none = (a ++ ':' :: b, 25565)) ∧
    (∀ h : List Char, ':' ∉ h → parse_host h none = (h, 25565)) ∧
    parse_host "example.com:25570".toList none = ("example.com".toList, 25570) ∧
    parse_host "example.com".toList none = ("example.com".toList, 25565) := by
  refine ⟨fun h p => rfl, fun a b p hm hp => ?_, fun a b hm hp => ?_,
    fun h hm => ?_, by decide, by decide⟩
  · simp [parse_host, split_once_append b hm, hp]
  · simp [parse_host, split_once_append b hm, hp]
  · simp [parse_host, split_once_of_not_mem hm]

/-- Witness for C6 (amended) at `("example", "25570")`. -/
theorem parse_host_amended_claim_witness :
    parse_host ("example".toList ++ ':' :: "25570".toList) none =
      ("example".toList, 25570) :=
  parse_host_amended_claim.2.1 "example".toList "25570".toList 25570
    (by decide) (by decide)

/-- A successful `findSplit` strictly shrinks the input when the
separator is nonempty. -/
theorem findSplit_length {sep : List Char} (hsep : sep ≠ []) :
    ∀ {s a r : List Char}, findSplit sep s = some (a, r) →
      r.length < s.length := by
  intro s
  induction s with
  | nil =>
    intro a r h
    simp [findSplit] at h
  | cons c rest ih =>
    intro a r h
    rw [findSplit] at h
    by_cases hp : sep.isPrefixOf (c :: rest)
    · rw [if_pos hp] at h
      have hle : sep.length ≤ (c :: rest).length :=
        (List.isPrefixOf_iff_prefix.mp hp).length_le
      have hpos : 0 < sep.length := List.length_pos.mpr hsep
      cases h
      simp only [List.length_drop, List.length_cons] at *
      omega
    · rw [if_neg hp] at h
      cases hfs : findSplit sep rest with
      | none => rw [hfs] at h; cases h
      | some pr =>
        rw [hfs] at h
        cases pr with
        | mk a2 r2 =>
          cases h
          have := ih hfs
          simp only [List.length_cons]
          omega

/-- `splitAllF` does not depend on the fuel once it exceeds the input
length. -/
theorem splitAllF_congr {sep : List Char} (hsep : sep ≠ []) :
    ∀ (fuel1 fuel2 : Nat) (s : List Char), s.length < fuel1 →
      s.length < fuel2 → splitAllF fuel1 sep s = splitAllF fuel2 sep s := by
  intro fuel1
  induction fuel1 with
  | zero =>
    intro fuel2 s h1
    omega
  | succ f1 ih =>
    intro fuel2 s h1 h2
    cases fuel2 with
    | zero => omega
    | succ f2 =>
      rw [splitAllF, splitAllF]
      cases hfs : findSplit sep s with
      | none => rfl
      | some pr =>
        cases pr with
        | mk a r =>
          have hr := findSplit_length hsep hfs
          show a :: splitAllF f1 sep r = a :: splitAllF f2 sep r
          rw [ih f2 r (by omega) (by omega)]

/-- Unfolding `splitAll` when no separator occurs. -/
theorem splitAll_of_none {sep s : List Char} (h : findSplit sep s = none) :
    splitAll sep s = [s] := by
  rw [splitAll, splitAllF, h]

/-- Unfolding `splitAll` at the first separator occurrence. -/
theorem splitAll_of_some {sep : List Char} (hsep : sep ≠ []) {s a r : List Char}
    (h : findSplit sep s = some (a, r)) :
    splitAll sep s = a :: splitAll sep r := by
  rw [splitAll, splitAllF, h]
  show a :: splitAllF s.length sep r = a :: splitAll sep r
  have hr := findSplit_length hsep h
  rw [splitAll, splitAllF_congr hsep s.length (r.length + 1) r (by omega) (by omega)]

/-- `splitAll` never returns an empty list. -/
theorem splitAll_ne_nil (sep s : List Char) : splitAll sep s ≠ [] := by
  rw [splitAll, splitAllF]
  cases hfs : findSplit sep s with
  | none => simp
  | some pr => cases pr; simp

/-- Counterexample for C7: on `"a: b: c"` the suffix after the first
`": "` is `"b: c"`, so the claim predicts the plugin list `["b: c"]`; the
code instead returns only `["b"]` — the text between the first and second
`": "` — discarding `" c"`. -/
theorem parse_plugins_counterexample :
    parse_plugins (some "a: b: c".toList) = ("a".toList, ["b".toList]) ∧
    parse_plugins (some "a: b: c".toList) ≠ ("a".toList, ["b: c".toList]) := by
  exact ⟨by decide, by decide⟩

/-- C7 (amended): `parse_plugins none = ("", [])`; for
`parse_plugins (some s)`, `s` is split at every occurrence of `": "`: the
segment before the first occurrence is the mod/server name, and the
second segment — the text between the first and second occurrences, or
the entire suffix when there is no second occurrence — is split at `"; "`
into the plugin list; text after a second `": "` is discarded.  The
spec's concrete vectors hold. -/
theorem parse_plugins_amended_claim :
    parse_plugins none = ([], []) ∧
    (∀ s : List Char,
      parse_plugins (some s) =
        ((splitAll [':', ' '] s).headI,
          match (splitAll [':', ' '] s)[1]? with
          | some snd => splitAll [';', ' '] snd
          | none => [])) ∧
    parse_plugins (some "CraftBukkit on Bukkit 1.2.5-R4.0".toList) =
      ("CraftBukkit on Bukkit 1.2.5-R4.0".toList, []) ∧
    parse_plugins
        (some "CraftBukkit on Bukkit 1.2.5-R4.0: WorldEdit 5.3; CommandBook 2.1".toList) =
      ("CraftBukkit on Bukkit 1.2.5-R4.0".toList,
        ["WorldEdit 5.3".toList, "CommandBook 2.1".toList]) := by
  refine ⟨rfl, fun s => ?_, by decide, by decide⟩
  rcases hfs : findSplit [':', ' '] s with _ | ⟨a, r⟩
  · simp only [parse_plugins, hfs, splitAll_of_none hfs]
    simp
  · rcases hfs2 : findSplit [':', ' '] r with _ | ⟨a2, r2⟩
    · simp only [parse_plugins, hfs, hfs2, splitAll_of_some (by decide) hfs,
        splitAll_of_none hfs2]
      simp
    · simp only [parse_plugins, hfs, hfs2, splitAll_of_some (by decide) hfs,
        splitAll_of_some (by decide) hfs2]
      simp

/-- Witness for C5 at `p = [0xAB]`, `i = 0x47`. -/
theorem build_packet_claim_witness :
    build_packet [0xAB] 0x47 =
      encode_varint ([0xAB].length + (encode_varint 0x47).length) ++
        encode_varint 0x47 ++ [0xAB] ∧
    read_varint (build_packet [0xAB] 0x47) =
      .ok ([0xAB].length + (encode_varint 0x47).length,
        encode_varint 0x47 ++ [0xAB]) ∧
    read_varint (encode_varint 0x47 ++ [0xAB]) = .ok (0x47, [0xAB]) :=
  build_packet_claim.1 [0xAB] 0x47 (by norm_num)
    (by simp +decide [encode_varint])

/-- In the realistic regime (`max_age ≤ now < 2 ^ 64`) the wrapping `u64`
subtraction is plain subtraction. -/
theorem u64_sub_eq {a b : Nat} (hb : b ≤ a) (ha : a < 2 ^ 64) :
    u64_sub a b = a - b := by
  rw [u64_sub, Nat.mod_eq_of_lt (show b < 2 ^ 64 by omega),
    show a + 2 ^ 64 - b = (a - b) + 2 ^ 64 by omega, Nat.add_mod_right,
    Nat.mod_eq_of_lt (by omega)]

/-- If the envelope observed at the post-lock re-read is fresh, the
refresh is never invoked, whatever the first read saw. -/
theorem get_cached_data_fresh2 {D : Type} [Metadata D] (read1 : Option D)
    {read2 : Option D} {d : D} (refresh : Except Error D)
    (now1 now2 now3 elapsed max_age : Nat) (hd : read2 = some d)
    (hf : u64_sub now2 max_age ≤ Metadata.updated_at d) :
    (get_cached_data read1 read2 refresh now1 now2 now3 elapsed
      max_age).refreshInvoked = false := by
  subst hd
  cases read1 with
  | none => simp [get_cached_data, get_cached_locked, hf]
  | some d1 =>
    rw [get_cached_data]
    by_cases h1 : u64_sub now1 max_age ≤ Metadata.updated_at d1
    · rw [if_pos h1]
    · rw [if_neg h1]
      simp [get_cached_locked, hf]

/-- If both observed envelopes are stale (or missing), `get_cached_data`
reaches the refresh-and-store step. -/
theorem get_cached_data_stale {D : Type} [Metadata D]
    {read1 read2 : Option D} (refresh : Except Error D)
    (now1 now2 now3 elapsed max_age : Nat)
    (h1 : ∀ d, read1 = some d → Metadata.updated_at d < u64_sub now1 max_age)
    (h2 : ∀ d, read2 = some d → Metadata.updated_at d < u64_sub now2 max_age) :
    get_cached_data read1 read2 refresh now1 now2 now3 elapsed max_age =
      refresh_and_store refresh now3 elapsed max_age := by
  have hl : get_cached_locked read2 refresh now2 now3 elapsed max_age =
      refresh_and_store refresh now3 elapsed max_age := by
    cases read2 with
    | none => rfl
    | some d =>
      rw [get_cached_locked, if_neg]
      have := h2 d rfl
      omega
  cases read1 with
  | none => rw [get_cached_data, hl]
  | some d =>
    rw [get_cached_data, if_neg, hl]
    have := h1 d rfl
    omega

/-- C1: if the envelope read before lock acquisition is fresh
(`fetched_at ≥ now - max_age` at the first timestamp), it is returned
with no lock taken, no refresh and no write; the check is repeated after
lock acquisition: a fresh envelope at the re-read also prevents the
refresh; and whenever the refresh IS invoked, the envelope at the
post-lock re-read was missing or stale. -/
theorem cache_freshness_claim {D : Type} [Metadata D]
    (read1 read2 : Option D) (refresh : Except Error D)
    (now1 now2 now3 elapsed max_age : Nat)
    (h1a : max_age ≤ now1) (h1b : now1 < 2 ^ 64)
    (h2a : max_age ≤ now2) (h2b : now2 < 2 ^ 64) :
    (∀ d, read1 = some d → now1 - max_age ≤ Metadata.updated_at d →
      get_cached_data read1 read2 refresh now1 now2 now3 elapsed max_age =
        ⟨.ok d, false, false, none⟩) ∧
    (∀ d, read2 = some d → now2 - max_age ≤ Metadata.updated_at d →
      (get_cached_data read1 read2 refresh now1 now2 now3 elapsed
        max_age).refreshInvoked = false) ∧
    ((get_cached_data read1 read2 refresh now1 now2 now3 elapsed
        max_age).refreshInvoked = true →
      ∀ d, read2 = some d → Metadata.updated_at d < now2 - max_age) := by
  refine ⟨?_, ?_, ?_⟩
  · rintro d rfl hd
    rw [get_cached_data, if_pos]
    rw [u64_sub_eq h1a h1b]
    exact hd
  · intro d hd hf
    exact get_cached_data_fresh2 read1 refresh now1 now2 now3 elapsed
      max_age hd (by rw [u64_sub_eq h2a h2b]; exact hf)
  · intro href d hd
    by_contra hlt
    push_neg at hlt
    rw [get_cached_data_fresh2 read1 refresh now1 now2 now3 elapsed
      max_age hd (by rw [u64_sub_eq h2a h2b]; exact hlt)] at href
    cases href

/-- Witness for C1: a fresh envelope (fetched at 1000, read at 1200 with
`max_age = 300`) is returned without lock, refresh or write. -/
theorem cache_freshness_claim_witness :
    get_cached_data (D := SpecEnvelope) (some ⟨true, none, 1000, 5⟩) none
      (.error .Timeout) 1200 1200 1200 7 300 =
      ⟨.ok ⟨true, none, 1000, 5⟩, false, false, none⟩ :=
  (cache_freshness_claim (D := SpecEnvelope) (some ⟨true, none, 1000, 5⟩) none
    (.error .Timeout) 1200 1200 1200 7 300 (by norm_num) (by norm_num)
    (by norm_num) (by norm_num)).1 ⟨true, none, 1000, 5⟩ rfl (by decide)

/-- C2: when both observed envelopes are stale (or missing) and the
refresh returns an error, the error is folded through the envelope's
error constructor and then handled exactly as a successful refresh
result would be: stamped via `set_times` with the completion timestamp
and measured duration, written to the key with TTL `max_age`, and
returned as a success. -/
theorem cache_error_folding_claim {D : Type} [Metadata D]
    (read1 read2 : Option D) (e : Error)
    (now1 now2 now3 elapsed max_age : Nat)
    (h1 : ∀ d, read1 = some d → Metadata.updated_at d < u64_sub now1 max_age)
    (h2 : ∀ d, read2 = some d → Metadata.updated_at d < u64_sub now2 max_age) :
    get_cached_data read1 read2 (.error e) now1 now2 now3 elapsed max_age =
      get_cached_data read1 read2 (.ok (Metadata.ofError e)) now1 now2 now3
        elapsed max_age ∧
    get_cached_data read1 read2 (.error e) now1 now2 now3 elapsed max_age =
      ⟨.ok (Metadata.set_times (Metadata.ofError e) now3 elapsed), true, true,
        some (Metadata.set_times (Metadata.ofError e) now3 elapsed, max_age)⟩ := by
  rw [get_cached_data_stale (.error e) now1 now2 now3 elapsed max_age h1 h2,
    get_cached_data_stale (.ok (Metadata.ofError e)) now1 now2 now3 elapsed
      max_age h1 h2]
  exact ⟨rfl, rfl⟩

/-- Witness for C2 on an empty cache: a refresh failing with `Timeout` is
folded, stamped with `fetched_at = 1210` and `duration = 7`, written with
TTL 300, and returned. -/
theorem cache_error_folding_claim_witness :
    get_cached_data (D := SpecEnvelope) none none (.error .Timeout)
      1200 1205 1210 7 300 =
      ⟨.ok ⟨false, some .Timeout, 1210, 7⟩, true, true,
        some (⟨false, some .Timeout, 1210, 7⟩, 300)⟩ :=
  (cache_error_folding_claim none none .Timeout 1200 1205 1210 7 300
    (by intro d h; cases h) (by intro d h; cases h)).2

/-- C8: for every port below 1024, `get_ping` and `get_query` return the
envelope folded from `InvalidPort` without reading the cache, taking the
lock, invoking the refresh (which holds the resolver and network work)
or writing; for every port of at least 1024, `validate_port` succeeds and
the cached lookup proceeds. -/
theorem port_validation_claim {D : Type} [Metadata D] :
    (∀ (port : Nat) (read1 read2 : Option D) (refresh : Except Error D)
      (now1 now2 now3 elapsed : Nat), port < 1024 →
        get_ping port read1 read2 refresh now1 now2 now3 elapsed =
          ⟨Metadata.ofError (.InvalidPort port), false, false, false, none⟩ ∧
        get_query port read1 read2 refresh now1 now2 now3 elapsed =
          ⟨Metadata.ofError (.InvalidPort port), false, false, false, none⟩ ∧
        validate_port port = .error (.InvalidPort port)) ∧
    (∀ (port : Nat) (read1 read2 : Option D) (refresh : Except Error D)
      (now1 now2 now3 elapsed : Nat), 1024 ≤ port →
        validate_port port = .ok () ∧
        (get_ping port read1 read2 refresh now1 now2 now3 elapsed).cacheRead =
          true ∧
        (get_query port read1 read2 refresh now1 now2 now3 elapsed).cacheRead =
          true) := by
  constructor
  · intro port read1 read2 refresh now1 now2 now3 elapsed hp
    have hv : validate_port port = .error (.InvalidPort port) := by
      rw [validate_port, if_pos hp]
    rw [get_ping, get_query, hv]
    exact ⟨rfl, rfl, rfl⟩
  · intro port read1 read2 refresh now1 now2 now3 elapsed hp
    have hv : validate_port port = .ok () := by
      rw [validate_port, if_neg (by omega)]
    rw [get_ping, get_query, hv]
    exact ⟨rfl, rfl, rfl⟩

/-- Witness for C8 at port 80 (rejected) and port 25565 (validated). -/
theorem port_validation_claim_witness :
    (get_ping (D := SpecEnvelope) 80 none none (.error .Timeout) 0 0 0 0 =
      ⟨Metadata.ofError (.InvalidPort 80), false, false, false, none⟩ ∧
      get_query (D := SpecEnvelope) 80 none none (.error .Timeout) 0 0 0 0 =
        ⟨Metadata.ofError (.InvalidPort 80), false, false, false, none⟩ ∧
      validate_port 80 = .error (.InvalidPort 80)) ∧
    validate_port 25565 = .ok () :=
  ⟨port_validation_claim.1 80 none none (.error .Timeout) 0 0 0 0
      (by norm_num),
    (port_validation_claim.2 25565 (none : Option SpecEnvelope) none
      (.error .Timeout) 0 0 0 0 (by norm_num)).1⟩

/-- Reading a null-terminated string consisting of the null-free bytes
`k` followed by a null byte yields exactly `k` (or `none` when `k` is
empty) and the remainder after the null byte. -/
theorem string_until_zero_go_append :
    ∀ (k items r : List Nat), (0 : Nat) ∉ k →
      string_until_zero_go items (k ++ 0 :: r) =
        (if (items ++ k).isEmpty then none else some (items ++ k), r) := by
  intro k
  induction k with
  | nil =>
    intro items r hm
    simp [string_until_zero_go]
  | cons b t ih =>
    intro items r hm
    simp only [List.mem_cons, not_or] at hm
    rw [List.cons_append, string_until_zero_go,
      if_neg (Ne.symm hm.1)]
    rw [ih (items ++ [b]) r hm.2]
    simp

/-- A nonempty null-free key followed by a null byte reads back as
itself. -/
theorem string_until_zero_some {k : List Nat} (r : List Nat) (hk : k ≠ [])
    (hm : (0 : Nat) ∉ k) :
    string_until_zero (k ++ 0 :: r) = (some k, r) := by
  rw [string_until_zero, string_until_zero_go_append k [] r hm]
  simp [hk]

/-- C9: a zero-length null-terminated string is reported as absent
(`string_until_zero` on a leading null byte yields `none`, consuming the
null byte); consequently in the query key/value loop a key whose value is
the empty string is skipped — nothing is inserted and parsing continues
after the empty value — and in the player-list loop an empty player name
terminates the list. -/
theorem query_empty_value_claim :
    (∀ rest : List Nat, string_until_zero (0 :: rest) = (none, rest)) ∧
    (∀ (f : Nat) (key r : List Nat)
      (kv : List (List Nat × List Nat))
      (server : Option (List Char × List (List Char))),
      key ≠ [] → (0 : Nat) ∉ key →
        query_kv_go (f + 1) (key ++ 0 :: 0 :: r) kv server =
          query_kv_go f r kv server) ∧
    (∀ (f : Nat) (junk : List Nat), parse_players_go (f + 1) (0 :: junk) = []) := by
  refine ⟨fun rest => rfl, ?_, fun f junk => rfl⟩
  intro f key r kv server hk hm
  rw [query_kv_go, string_until_zero_some (0 :: r) hk hm]
  rfl

/-- Witness for C9: the key `"k"` (byte 107) with an empty value is
skipped and the loop continues. -/
theorem query_empty_value_claim_witness :
    query_kv_go 1 ([107] ++ 0 :: 0 :: []) [] none =
      query_kv_go 0 [] [] none :=
  query_empty_value_claim.2.1 0 [107] [] [] none (by decide) (by decide)

end Mcapi
